import Mathlib

/-!
Serial and OpenMP min/max/mean reductions, data generation and the benchmark
loop: a shallow embedding of `src/min_max_mean.c`.

* C `int` values are `Int`s, the range `[INT_MIN, INT_MAX]` being a hypothesis
  where it matters; the `long long` accumulator wraps modulo `2^64`
  (`wrap64`).
* an array `data[0 .. size-1]` is the list of its elements, `size` its length.
* C `double` values are `Dbl`: a finite value (the rational it denotes), an
  infinity or NaN.  Every arithmetic result is rounded to binary64, to nearest,
  ties to even (`roundDouble`).  The sign of a zero is not tracked.
* what the OpenMP runtime and the C library decide (how iterations are split
  among workers, what `rand_r`, `malloc`, `fopen` and `gettimeofday` return) is
  an input of the model.
-/

namespace MinMaxMean

/-! ## Constants -/

/-- The constant `INT_MAX` of `<limits.h>` for a 32-bit `int`. -/
def INT_MAX : Int := 2147483647

/-- The constant `INT_MIN` of `<limits.h>` for a 32-bit `int`. -/
def INT_MIN : Int := -2147483648

/-- Source: `#define ARRAY_SIZE 1000000000`. -/
def ARRAY_SIZE : Nat := 1000000000

/-- Source: `#define MAX_VALUE 1000000000`. -/
def MAX_VALUE : Int := 1000000000

/-- Source: `#define NUM_RUNS 5`. -/
def NUM_RUNS : Nat := 5

/-- The constant `RAND_MAX` of `<stdlib.h>`: the value glibc defines, `2^31 - 1`. -/
def RAND_MAX : Int := 2147483647

/-- Source: `int thread_counts[] = {1, 2, 4, 6, 8, 10, 12, 14, 16};` -/
def thread_counts : List Int := [1, 2, 4, 6, 8, 10, 12, 14, 16]

/-! ## Machine arithmetic -/

/-- Two's-complement reduction of an integer to the range of `long long`. -/
def wrap64 (z : Int) : Int := (z + 2 ^ 63) % 2 ^ 64 - 2 ^ 63

/-- A C `double`. -/
inductive Dbl where
  | fin (q : ℚ)
  | inf (neg : Bool)
  | nan
  deriving DecidableEq

/-- Nearest integer to a rational, a tie going to the even neighbour. -/
def roundHalfEven (x : ℚ) : Int :=
  if x - ⌊x⌋ < 1 / 2 then ⌊x⌋
  else if 1 / 2 < x - ⌊x⌋ then ⌊x⌋ + 1
  else if ⌊x⌋ % 2 = 0 then ⌊x⌋ else ⌊x⌋ + 1

/-- Exponent of the binade a non-zero rational falls in, subnormals sharing the
lowest one. -/
def binade (q : ℚ) : Int := max (Int.log 2 |q|) (-1022)

/-- Rounding of an exact result to binary64: 53 significant bits, to nearest,
ties to even; a result that rounds to `2^1024` or beyond is an infinity. -/
def roundDouble (q : ℚ) : Dbl :=
  if q = 0 then Dbl.fin 0
  else
    let ulp : ℚ := 2 ^ (binade q - 52)
    let r : ℚ := roundHalfEven (q / ulp) * ulp
    if 2 ^ (1024 : Int) ≤ |r| then Dbl.inf (decide (q < 0)) else Dbl.fin r

/-- Conversion of an integer (`int`, `long long`, `time_t`) to `double`. -/
def ofInt (z : Int) : Dbl := roundDouble z

/-- Negation of a `double`. -/
def dneg : Dbl → Dbl
  | Dbl.fin q => Dbl.fin (-q)
  | Dbl.inf s => Dbl.inf (!s)
  | Dbl.nan => Dbl.nan

/-- Addition of `double`s. -/
def dadd : Dbl → Dbl → Dbl
  | Dbl.nan, _ => Dbl.nan
  | _, Dbl.nan => Dbl.nan
  | Dbl.inf s, Dbl.inf t => if s = t then Dbl.inf s else Dbl.nan
  | Dbl.inf s, Dbl.fin _ => Dbl.inf s
  | Dbl.fin _, Dbl.inf t => Dbl.inf t
  | Dbl.fin a, Dbl.fin b => roundDouble (a + b)

/-- Subtraction of `double`s. -/
def dsub (x y : Dbl) : Dbl := dadd x (dneg y)

/-- Multiplication of `double`s. -/
def dmul : Dbl → Dbl → Dbl
  | Dbl.nan, _ => Dbl.nan
  | _, Dbl.nan => Dbl.nan
  | Dbl.inf s, Dbl.inf t => Dbl.inf (xor s t)
  | Dbl.inf s, Dbl.fin b => if b = 0 then Dbl.nan else Dbl.inf (xor s (decide (b < 0)))
  | Dbl.fin a, Dbl.inf t => if a = 0 then Dbl.nan else Dbl.inf (xor (decide (a < 0)) t)
  | Dbl.fin a, Dbl.fin b => roundDouble (a * b)

/-- Division of `double`s: `0/0` and `inf/inf` are NaN, a non-zero value over
zero is an infinity. -/
def ddiv : Dbl → Dbl → Dbl
  | Dbl.nan, _ => Dbl.nan
  | _, Dbl.nan => Dbl.nan
  | Dbl.inf _, Dbl.inf _ => Dbl.nan
  | Dbl.inf s, Dbl.fin b => Dbl.inf (xor s (decide (b < 0)))
  | Dbl.fin _, Dbl.inf _ => Dbl.fin 0
  | Dbl.fin a, Dbl.fin b =>
    if b = 0 then (if a = 0 then Dbl.nan else Dbl.inf (decide (a < 0)))
    else roundDouble (a / b)

/-- Function `get_time`: `tv.tv_sec + tv.tv_usec * 1e-6` for the `timeval` that
`gettimeofday` filled in. -/
def get_time (tv : Int × Int) : Dbl :=
  dadd (ofInt tv.1) (dmul (ofInt tv.2) (roundDouble (1 / 1000000)))

/-! ## Data generation -/

/-- The value stored for one draw: `rand_r(&seed) % (MAX_VALUE + 1)`, with C's
truncating remainder. -/
def raw_to_value (raw : Int) : Int := Int.tmod raw (MAX_VALUE + 1)

/-- The iterations of one worker of `generate_data`: `n` consecutive draws from
the worker's own seed.  `rand_r seed` is the updated seed and the value
returned. -/
def fill_chunk (rand_r : Nat → Nat × Int) : Nat → Nat → List Int
  | _, 0 => []
  | seed, n + 1 =>
    raw_to_value (rand_r seed).2 :: fill_chunk rand_r (rand_r seed).1 n

/-- The seed of worker `tid`: `unsigned int seed = time(NULL) ^ omp_get_thread_num()`. -/
def worker_seed (now tid : Nat) : Nat := (now ^^^ tid) % 2 ^ 32

/-- The workers of `generate_data` from number `tid` on, each filling its own
contiguous range of the array. -/
def fill_workers (rand_r : Nat → Nat × Int) (now : Nat) : Nat → List Nat → List Int
  | _, [] => []
  | tid, n :: rest =>
    fill_chunk rand_r (worker_seed now tid) n ++ fill_workers rand_r now (tid + 1) rest

/-- Function `generate_data`: the array after the parallel region, `chunks` being the
number of iterations the runtime gave to worker 0, 1, ... (`size` is their
sum). -/
def generate_data (rand_r : Nat → Nat × Int) (now : Nat) (chunks : List Nat) : List Int :=
  fill_workers rand_r now 0 chunks

/-- Number of raw values in `[0, RAND_MAX]` that `generate_data` maps to `v`. -/
def preimage_count (v : Int) : Nat :=
  ((Finset.range (RAND_MAX.toNat + 1)).filter (fun r : Nat => raw_to_value r = v)).card

/-! ## Reductions -/

/-- The variables a reduction loop updates. -/
structure Acc where
  min_val : Int
  max_val : Int
  sum : Int
  deriving DecidableEq

/-- What a reduction hands back through its three out-pointers. -/
structure Result where
  min_val : Int
  max_val : Int
  mean_val : Dbl
  deriving DecidableEq

/-- Values before the loop: `INT_MAX`, `INT_MIN`, `0`. -/
def acc_init : Acc := { min_val := INT_MAX, max_val := INT_MIN, sum := 0 }

/-- One iteration of the loop body on `data[i] = x`. -/
def scan_step (a : Acc) (x : Int) : Acc :=
  { min_val := if x < a.min_val then x else a.min_val
    max_val := if x > a.max_val then x else a.max_val
    sum := wrap64 (a.sum + x) }

/-- The loop `for (i = 0; i < size; i++)` over the elements of `data`. -/
def scan (a : Acc) (data : List Int) : Acc := data.foldl scan_step a

/-- The closing statements: min and max are handed back, the mean is
`(double)sum / size`. -/
def finish (a : Acc) (size : Nat) : Result :=
  { min_val := a.min_val
    max_val := a.max_val
    mean_val := ddiv (ofInt a.sum) (ofInt size) }

/-- The loop state of `serial_min_max_mean` when the loop is left. -/
def serial_scan (data : List Int) : Acc := scan acc_init data

/-- Function `serial_min_max_mean`: the loop, then the closing statements. -/
def serial_min_max_mean (data : List Int) : Result :=
  finish (serial_scan data) data.length

/-- Split of an array into contiguous chunks of the given lengths. -/
def chunked : List Int → List Nat → List (List Int)
  | _, [] => []
  | data, n :: rest => data.take n :: chunked (data.drop n) rest

/-- The OpenMP combiners of `reduction(min:..)`, `reduction(max:..)` and
`reduction(+:..)`: a worker's private copy `inn` is merged into `out`. -/
def combine (out inn : Acc) : Acc :=
  { min_val := if inn.min_val < out.min_val then inn.min_val else out.min_val
    max_val := if inn.max_val > out.max_val then inn.max_val else out.max_val
    sum := wrap64 (out.sum + inn.sum) }

/-- The private copies of the workers at the end of the parallel loop: each
starts from the identities `INT_MAX`, `INT_MIN`, `0` and scans its chunk. -/
def worker_results (data : List Int) (sizes : List Nat) : List Acc :=
  (chunked data sizes).map (scan acc_init)

/-- The shared variables after the parallel loop: the private copies are merged
into the original values `INT_MAX`, `INT_MIN`, `0`. -/
def parallel_scan (data : List Int) (sizes : List Nat) : Acc :=
  (worker_results data sizes).foldl combine acc_init

/-- Function `parallel_min_max_mean`, `sizes` being the chunk lengths the runtime
chose. -/
def parallel_min_max_mean (data : List Int) (sizes : List Nat) : Result :=
  finish (parallel_scan data sizes) data.length

/-! ## The benchmark harness -/

/-- What the environment decides during one execution of `main`. -/
structure Env where
  /-- whether `malloc` returns a non-NULL pointer -/
  malloc_ok : Bool
  /-- whether `fopen("results.csv", "w")` returns a non-NULL stream -/
  fopen_ok : Bool
  /-- value of `time(NULL)` in `generate_data` -/
  now : Nat
  /-- the C library's `rand_r`: updated seed and value returned -/
  rand_r : Nat → Nat × Int
  /-- iterations of the generation loop given to each worker -/
  gen_chunks : List Nat
  /-- the `timeval` (`tv_sec`, `tv_usec`) read in configuration `t`, run `run`,
  before (`false`) and after (`true`) the reduction -/
  gettimeofday : Nat → Nat → Bool → Int × Int
  /-- chunk lengths of the parallel reduction of configuration `t`, run `run` -/
  red_chunks : Nat → Nat → List Nat

/-- One line of the results table. -/
structure Row where
  num_threads : Int
  avg_time : Dbl
  speedup : Dbl
  final_min : Int
  final_max : Int
  final_mean : Dbl
  deriving DecidableEq

/-- Observable actions of `main`, in program order. -/
inductive Event where
  | printf (text : String)
  | fill (data : List Int)
  | fopen (path : String)
  | fprintf (text : String)
  | reduction (num_threads : Int)
  | print_row (row : Row)
  | csv_row (row : Row)
  | fclose
  | free
  deriving DecidableEq

/-- How `main` ends: it returns a status, or its behaviour is undefined
(`fprintf` on the NULL stream of a failed `fopen`). -/
inductive Status where
  | returned (code : Int)
  | undefined
  deriving DecidableEq

/-- An execution of `main`. -/
structure Outcome where
  trace : List Event
  status : Status

/-- The reduction one run calls: the serial one for one thread, the parallel
one otherwise. -/
def run_reduction (env : Env) (data : List Int) (t run : Nat) (num_threads : Int) : Result :=
  if num_threads = 1 then serial_min_max_mean data
  else parallel_min_max_mean data (env.red_chunks t run)

/-- The difference `end_time - start_time` of one run. -/
def run_time (env : Env) (t run : Nat) : Dbl :=
  dsub (get_time (env.gettimeofday t run true)) (get_time (env.gettimeofday t run false))

/-- Value of `total_time` after the `NUM_RUNS` runs of configuration `t`: starting from
`0`, each run does `total_time += (end_time - start_time)`. -/
def total_time (env : Env) (t : Nat) : Dbl :=
  (List.range NUM_RUNS).foldl (fun tot run => dadd tot (run_time env t run)) (Dbl.fin 0)

/-- Source: `avg_time = total_time / NUM_RUNS`. -/
def avg_of (total : Dbl) : Dbl := ddiv total (ofInt NUM_RUNS)

/-- The statements after the runs of a configuration: `serial_time` is the
value before, `total` the accumulated time; the result is the updated
`serial_time` and the speedup. -/
def speedup_step (serial_time : Dbl) (num_threads : Int) (total : Dbl) : Dbl × Dbl :=
  let avg_time := avg_of total
  let serial_time1 := if num_threads = 1 then avg_time else serial_time
  (serial_time1, ddiv serial_time1 avg_time)

/-- One iteration of the loop over `thread_counts`: the updated `serial_time`
and the row printed.  The result shown is the one of run `0`. -/
def bench_config (env : Env) (data : List Int) (serial_time : Dbl) (t : Nat)
    (num_threads : Int) : Dbl × Row :=
  let total := total_time env t
  let first := run_reduction env data t 0 num_threads
  let s := speedup_step serial_time num_threads total
  (s.1, { num_threads := num_threads
          avg_time := avg_of total
          speedup := s.2
          final_min := first.min_val
          final_max := first.max_val
          final_mean := first.mean_val })

/-- The loop `for (t = 0; t < num_thread_configs; t++)`, from index `t` on with
the counts still to do: the rows in the order they are emitted. -/
def bench_loop (env : Env) (data : List Int) : Dbl → Nat → List Int → List Row
  | _, _, [] => []
  | serial_time, t, n :: rest =>
    (bench_config env data serial_time t n).2 ::
      bench_loop env data (bench_config env data serial_time t n).1 (t + 1) rest

/-- The rows of the whole benchmark: `serial_time` starts at `0`. -/
def bench_rows (env : Env) (data : List Int) : List Row :=
  bench_loop env data (Dbl.fin 0) 0 thread_counts

/-- Actions of one configuration: its `NUM_RUNS` reductions, then the table row
and the CSV row. -/
def row_events (row : Row) : List Event :=
  List.replicate NUM_RUNS (Event.reduction row.num_threads) ++
    [Event.print_row row, Event.csv_row row]

/-- The three `printf`s `main` starts with. -/
def banner : List Event :=
  [Event.printf "Min-Max-Mean Parallel Computing with OpenMP\n",
   Event.printf "Array size: 1000000000 elements\n",
   Event.printf "Domain: \x7b0, 1, ..., 1000000000\x7d\n\n"]

/-- Function `main`: what it does and how it ends, in the given environment. -/
def main (env : Env) : Outcome :=
  if env.malloc_ok = false then
    { trace := banner ++ [Event.printf "Memory allocation failed!\n"]
      status := Status.returned 1 }
  else
    let data := generate_data env.rand_r env.now env.gen_chunks
    let generated := banner ++
      [Event.printf "Generating 1000000000 random numbers...\n",
       Event.fill data,
       Event.printf "Data generation completed.\n",
       Event.fopen "results.csv"]
    if env.fopen_ok = false then
      { trace := generated, status := Status.undefined }
    else
      { trace := generated ++
          [Event.fprintf "Threads,Runtime(s),Speedup,Min,Max,Mean\n",
           Event.printf "Thread Count | Runtime(s) | Speedup | Min Value | Max Value | Mean Value\n",
           Event.printf "-------------|------------|---------|-----------|-----------|------------\n"] ++
          (bench_rows env data).flatMap row_events ++
          [Event.fclose, Event.free,
           Event.printf "\nResults saved to results.csv\n",
           Event.printf "Run \x27python3 plot.py\x27 to generate graphs\n"]
        status := Status.returned 0 }

/-! ## Auxiliary notions for the proofs -/

/-- An execution whose clock does not advance: every `gettimeofday` reads
1700000000 s, 0 µs.  Allocation and `fopen` succeed. -/
def env_stuck_clock : Env :=
  { malloc_ok := true
    fopen_ok := true
    now := 1700000000
    rand_r := fun seed => ((seed * 1103515245 + 12345) % 2 ^ 32, (seed : Int) % 2147483648)
    gen_chunks := [ARRAY_SIZE]
    gettimeofday := fun _ _ _ => (1700000000, 0)
    red_chunks := fun _ _ => [ARRAY_SIZE] }

/-- An execution in which `malloc` returns NULL. -/
def env_no_memory : Env := { env_stuck_clock with malloc_ok := false }

/-- An execution in which `malloc` succeeds and `fopen` returns NULL. -/
def env_no_file : Env := { env_stuck_clock with fopen_ok := false }

/-- An accumulator a reduction can hold: its minimum is at most `INT_MAX`, its
maximum at least `INT_MIN` (the identities it started from), its sum is reduced
to 64 bits. -/
def Reachable (a : Acc) : Prop :=
  a.min_val ≤ INT_MAX ∧ INT_MIN ≤ a.max_val ∧ wrap64 a.sum = a.sum

/-! ## Lemmas on the accumulator -/

theorem wrap64_of_range (z : Int) (h1 : -(2 ^ 63) ≤ z) (h2 : z < 2 ^ 63) : wrap64 z = z := by
  unfold wrap64; omega

theorem wrap64_add_left (a b : Int) : wrap64 (wrap64 a + b) = wrap64 (a + b) := by
  unfold wrap64; omega

theorem wrap64_idem (a : Int) : wrap64 (wrap64 a) = wrap64 a := by
  unfold wrap64; omega

theorem scan_nil (a : Acc) : scan a [] = a := rfl

theorem scan_cons (a : Acc) (x : Int) (xs : List Int) :
    scan a (x :: xs) = scan (scan_step a x) xs := rfl

theorem scan_append (a : Acc) (xs ys : List Int) :
    scan a (xs ++ ys) = scan (scan a xs) ys := by
  simp [scan, List.foldl_append]

/-- The running minimum is below its start value and below every element seen. -/
theorem scan_min_le (data : List Int) : ∀ a : Acc,
    (scan a data).min_val ≤ a.min_val ∧ ∀ x ∈ data, (scan a data).min_val ≤ x := by
  induction data with
  | nil => intro a; simp [scan_nil]
  | cons y ys ih =>
    intro a
    rw [scan_cons]
    obtain ⟨h1, h2⟩ := ih (scan_step a y)
    have h3 : (scan_step a y).min_val ≤ a.min_val ∧ (scan_step a y).min_val ≤ y := by
      simp only [scan_step]; split_ifs <;> omega
    refine ⟨by omega, ?_⟩
    intro x hx
    rcases List.mem_cons.1 hx with rfl | hx
    · omega
    · exact h2 x hx

/-- The running minimum is its start value or an element seen. -/
theorem scan_min_mem (data : List Int) : ∀ a : Acc,
    (scan a data).min_val = a.min_val ∨ (scan a data).min_val ∈ data := by
  induction data with
  | nil => intro a; simp [scan_nil]
  | cons y ys ih =>
    intro a
    rw [scan_cons]
    rcases ih (scan_step a y) with h | h
    · have h3 : (scan_step a y).min_val = a.min_val ∨ (scan_step a y).min_val = y := by
        simp only [scan_step]; split_ifs <;> simp
      rcases h3 with h3 | h3
      · left; rw [h, h3]
      · right; rw [h, h3]; exact List.mem_cons_self _ _
    · right; exact List.mem_cons_of_mem _ h

/-- The running maximum is above its start value and above every element seen. -/
theorem scan_max_ge (data : List Int) : ∀ a : Acc,
    a.max_val ≤ (scan a data).max_val ∧ ∀ x ∈ data, x ≤ (scan a data).max_val := by
  induction data with
  | nil => intro a; simp [scan_nil]
  | cons y ys ih =>
    intro a
    rw [scan_cons]
    obtain ⟨h1, h2⟩ := ih (scan_step a y)
    have h3 : a.max_val ≤ (scan_step a y).max_val ∧ y ≤ (scan_step a y).max_val := by
      simp only [scan_step]; split_ifs <;> omega
    refine ⟨by omega, ?_⟩
    intro x hx
    rcases List.mem_cons.1 hx with rfl | hx
    · omega
    · exact h2 x hx

/-- The running maximum is its start value or an element seen. -/
theorem scan_max_mem (data : List Int) : ∀ a : Acc,
    (scan a data).max_val = a.max_val ∨ (scan a data).max_val ∈ data := by
  induction data with
  | nil => intro a; simp [scan_nil]
  | cons y ys ih =>
    intro a
    rw [scan_cons]
    rcases ih (scan_step a y) with h | h
    · have h3 : (scan_step a y).max_val = a.max_val ∨ (scan_step a y).max_val = y := by
        simp only [scan_step]; split_ifs <;> simp
      rcases h3 with h3 | h3
      · left; rw [h, h3]
      · right; rw [h, h3]; exact List.mem_cons_self _ _
    · right; exact List.mem_cons_of_mem _ h

/-- The accumulator holds the exact sum reduced to 64 bits. -/
theorem scan_sum (data : List Int) : ∀ a : Acc, wrap64 a.sum = a.sum →
    (scan a data).sum = wrap64 (a.sum + data.sum) := by
  induction data with
  | nil => intro a ha; simp [scan_nil, ha]
  | cons y ys ih =>
    intro a _
    rw [scan_cons, ih (scan_step a y) (by simp [scan_step, wrap64_idem])]
    simp only [scan_step, List.sum_cons]
    rw [wrap64_add_left, add_assoc]

theorem serial_scan_sum (data : List Int) : (serial_scan data).sum = wrap64 data.sum := by
  have h := scan_sum data acc_init (by simp [acc_init, wrap64])
  simpa [serial_scan, acc_init] using h

/-- Minimum of the serial scan of a non-empty `int` array: attained and a lower
bound. -/
theorem serial_scan_min (data : List Int) (hne : data ≠ [])
    (hint : ∀ x ∈ data, INT_MIN ≤ x ∧ x ≤ INT_MAX) :
    (serial_scan data).min_val ∈ data ∧ ∀ x ∈ data, (serial_scan data).min_val ≤ x := by
  obtain ⟨_, h2⟩ := scan_min_le data acc_init
  refine ⟨?_, h2⟩
  rcases scan_min_mem data acc_init with h | h
  · obtain ⟨y, hy⟩ := List.exists_mem_of_ne_nil data hne
    have h3 := h2 y hy
    have h4 := (hint y hy).2
    have h5 : (serial_scan data).min_val = y := by
      simp only [serial_scan]
      rw [h] at h3 ⊢
      simp only [acc_init] at h3 ⊢
      omega
    rw [h5]; exact hy
  · exact h

/-- Maximum of the serial scan of a non-empty `int` array: attained and an upper
bound. -/
theorem serial_scan_max (data : List Int) (hne : data ≠ [])
    (hint : ∀ x ∈ data, INT_MIN ≤ x ∧ x ≤ INT_MAX) :
    (serial_scan data).max_val ∈ data ∧ ∀ x ∈ data, x ≤ (serial_scan data).max_val := by
  obtain ⟨_, h2⟩ := scan_max_ge data acc_init
  refine ⟨?_, h2⟩
  rcases scan_max_mem data acc_init with h | h
  · obtain ⟨y, hy⟩ := List.exists_mem_of_ne_nil data hne
    have h3 := h2 y hy
    have h4 := (hint y hy).1
    have h5 : (serial_scan data).max_val = y := by
      simp only [serial_scan]
      rw [h] at h3 ⊢
      simp only [acc_init] at h3 ⊢
      omega
    rw [h5]; exact hy
  · exact h

theorem length_mul_le_sum (m : Int) (data : List Int) (h : ∀ x ∈ data, m ≤ x) :
    m * data.length ≤ data.sum := by
  induction data with
  | nil => simp
  | cons y ys ih =>
    have h1 := h y (List.mem_cons_self _ _)
    have h2 := ih (fun x hx => h x (List.mem_cons_of_mem _ hx))
    simp only [List.length_cons, List.sum_cons, Nat.cast_add, Nat.cast_one]
    linarith

theorem sum_le_length_mul (m : Int) (data : List Int) (h : ∀ x ∈ data, x ≤ m) :
    data.sum ≤ m * data.length := by
  induction data with
  | nil => simp
  | cons y ys ih =>
    have h1 := h y (List.mem_cons_self _ _)
    have h2 := ih (fun x hx => h x (List.mem_cons_of_mem _ hx))
    simp only [List.length_cons, List.sum_cons, Nat.cast_add, Nat.cast_one]
    linarith

/-! ## Lemmas on the parallel reduction -/

theorem reachable_init : Reachable acc_init := by
  simp [Reachable, acc_init, wrap64]

theorem reachable_step (a : Acc) (x : Int) (h : Reachable a) : Reachable (scan_step a x) := by
  obtain ⟨h1, h2, _⟩ := h
  refine ⟨?_, ?_, ?_⟩
  · simp only [scan_step]; split_ifs <;> omega
  · simp only [scan_step]; split_ifs <;> omega
  · simp only [scan_step]; exact wrap64_idem _

theorem reachable_scan (data : List Int) : ∀ a : Acc, Reachable a → Reachable (scan a data) := by
  induction data with
  | nil => intro a h; simpa [scan_nil] using h
  | cons y ys ih => intro a h; rw [scan_cons]; exact ih _ (reachable_step a y h)

/-- Merging two intermediate results one after the other, in either order. -/
theorem combine_right_comm (a b c : Acc) :
    combine (combine a b) c = combine (combine a c) b := by
  simp only [combine, Acc.mk.injEq]
  refine ⟨?_, ?_, ?_⟩
  · split_ifs <;> omega
  · split_ifs <;> omega
  · unfold wrap64; omega

/-- Scanning one more element is merging the scan of that element alone. -/
theorem combine_step (a c : Acc) (x : Int) (h : Reachable a) :
    combine (scan_step a x) c = combine a (combine (scan_step acc_init x) c) := by
  obtain ⟨h1, h2, _⟩ := h
  simp only [combine, scan_step, acc_init, Acc.mk.injEq]
  simp only [INT_MAX, INT_MIN] at h1 h2 ⊢
  refine ⟨?_, ?_, ?_⟩
  · split_ifs <;> omega
  · split_ifs <;> omega
  · unfold wrap64; omega

theorem combine_init_right (a : Acc) (h : Reachable a) : combine a acc_init = a := by
  obtain ⟨h1, h2, h3⟩ := h
  cases a with
  | mk mn mx sm =>
    simp only [combine, acc_init, Acc.mk.injEq]
    simp only [INT_MAX, INT_MIN] at h1 h2 ⊢
    refine ⟨?_, ?_, ?_⟩
    · split_ifs <;> omega
    · split_ifs <;> omega
    · simpa using h3

/-- Continuing a scan over a chunk is merging the chunk's own scan from the
identities. -/
theorem scan_eq_combine (data : List Int) : ∀ a : Acc, Reachable a →
    scan a data = combine a (scan acc_init data) := by
  induction data with
  | nil => intro a h; rw [scan_nil, scan_nil, combine_init_right a h]
  | cons y ys ih =>
    intro a h
    rw [scan_cons, scan_cons, ih _ (reachable_step a y h),
      ih _ (reachable_step acc_init y reachable_init), combine_step a _ y h]

theorem chunked_join (sizes : List Nat) : ∀ data : List Int, sizes.sum = data.length →
    (chunked data sizes).flatten = data := by
  induction sizes with
  | nil =>
    intro data h
    have : data = [] := List.length_eq_zero.1 (by simpa using h.symm)
    simp [chunked, this]
  | cons n rest ih =>
    intro data h
    simp only [List.sum_cons] at h
    simp only [chunked, List.flatten_cons]
    rw [ih (data.drop n) (by simp; omega), List.take_append_drop]

/-- Merging the workers' scans, in worker order, is scanning the chunks one
after the other. -/
theorem foldl_combine_scan (chunks : List (List Int)) : ∀ a : Acc, Reachable a →
    (chunks.map (scan acc_init)).foldl combine a = scan a chunks.flatten := by
  induction chunks with
  | nil => intro a _; simp [scan_nil]
  | cons c cs ih =>
    intro a h
    simp only [List.map_cons, List.foldl_cons, List.flatten_cons]
    rw [← scan_eq_combine c a h, ih _ (reachable_scan c a h), scan_append]

theorem parallel_scan_eq_serial (data : List Int) (sizes : List Nat)
    (h : sizes.sum = data.length) : parallel_scan data sizes = serial_scan data := by
  unfold parallel_scan worker_results serial_scan
  rw [foldl_combine_scan _ _ reachable_init, chunked_join sizes data h]

/-- The merged result does not depend on the order in which the private copies
are merged. -/
theorem foldl_combine_perm (ps qs : List Acc) (h : ps.Perm qs) (a : Acc) :
    ps.foldl combine a = qs.foldl combine a := by
  induction h generalizing a with
  | nil => rfl
  | cons x _ ih => simp only [List.foldl_cons]; exact ih _
  | swap x y l => simp only [List.foldl_cons]; rw [combine_right_comm]
  | trans _ _ ih1 ih2 => rw [ih1, ih2]

/-! ## Lemmas on binary64 rounding -/

theorem roundDouble_zero : roundDouble 0 = Dbl.fin 0 := by simp [roundDouble]

theorem roundHalfEven_intCast (j : Int) : roundHalfEven (j : ℚ) = j := by
  simp [roundHalfEven]

/-- A rational `m * 2^k` with `|m| < 2^53`, `k ≥ -1074` and magnitude below
`2^1024` is a binary64 value: rounding leaves it unchanged. -/
theorem roundDouble_exact (m k : Int) (hm : |m| < 2 ^ 53) (hk : -1074 ≤ k)
    (hmax : |(m : ℚ) * 2 ^ k| < 2 ^ (1024 : Int)) :
    roundDouble ((m : ℚ) * 2 ^ k) = Dbl.fin ((m : ℚ) * 2 ^ k) := by
  by_cases h0 : (m : ℚ) * 2 ^ k = 0
  · simp [roundDouble, h0]
  · have h2 : (0 : ℚ) < 2 := by norm_num
    have hqpos : (0 : ℚ) < |(m : ℚ) * 2 ^ k| := abs_pos.2 h0
    -- the binade exponent is at most `k + 52`
    have hlog : Int.log 2 |(m : ℚ) * 2 ^ k| < 53 + k := by
      have h3 : ((2 : ℕ) : ℚ) ^ Int.log 2 |(m : ℚ) * 2 ^ k| ≤ |(m : ℚ) * 2 ^ k| :=
        Int.zpow_log_le_self (by norm_num) hqpos
      have h4 : |(m : ℚ) * 2 ^ k| < (2 : ℚ) ^ (53 + k) := by
        rw [abs_mul, abs_of_pos (zpow_pos h2 k), zpow_add₀ (by norm_num : (2 : ℚ) ≠ 0)]
        have h5 : |(m : ℚ)| < 2 ^ (53 : Int) := by
          have h7 : ((|m| : Int) : ℚ) < (2 : ℚ) ^ (53 : ℕ) := by exact_mod_cast hm
          rw [Int.cast_abs] at h7
          have h8 : (2 : ℚ) ^ (53 : Int) = (2 : ℚ) ^ (53 : ℕ) := by norm_num
          rw [h8]; exact h7
        exact mul_lt_mul_of_pos_right h5 (zpow_pos h2 k)
      have h6 : (2 : ℚ) ^ Int.log 2 |(m : ℚ) * 2 ^ k| < (2 : ℚ) ^ (53 + k) := by
        have : ((2 : ℕ) : ℚ) = 2 := by norm_num
        rw [this] at h3
        exact lt_of_le_of_lt h3 h4
      exact (zpow_lt_zpow_iff_right₀ (by norm_num : (1 : ℚ) < 2)).1 h6
    have hb : binade ((m : ℚ) * 2 ^ k) - 52 ≤ k := by
      unfold binade
      rcases max_cases (Int.log 2 |(m : ℚ) * 2 ^ k|) (-1022) with ⟨h, _⟩ | ⟨h, _⟩ <;> rw [h] <;> omega
    obtain ⟨d, hd⟩ : ∃ d : ℕ, k = (binade ((m : ℚ) * 2 ^ k) - 52) + d :=
      ⟨(k - (binade ((m : ℚ) * 2 ^ k) - 52)).toNat, by omega⟩
    have hq : (m : ℚ) * 2 ^ k / 2 ^ (binade ((m : ℚ) * 2 ^ k) - 52) = ((m * 2 ^ d : Int) : ℚ) := by
      have hne : (2 : ℚ) ^ (binade ((m : ℚ) * 2 ^ k) - 52) ≠ 0 := (zpow_pos h2 _).ne'
      rw [div_eq_iff hne]
      conv_lhs => rw [hd]
      rw [zpow_add₀ (by norm_num : (2 : ℚ) ≠ 0)]
      push_cast
      rw [zpow_natCast]
      ring
    simp only [roundDouble, h0, if_false]
    rw [hq, roundHalfEven_intCast, ← hq, div_mul_cancel₀ _ ((zpow_pos h2 _).ne')]
    rw [if_neg (not_le.2 hmax)]

/-- An integer of magnitude below `2^53` converts to `double` unchanged. -/
theorem ofInt_exact (z : Int) (h : |z| < 2 ^ 53) : ofInt z = Dbl.fin z := by
  have h1 := roundDouble_exact z 0 h (by norm_num) (by
    rw [zpow_zero, mul_one]
    have h7 : ((|z| : Int) : ℚ) < (2 : ℚ) ^ (53 : ℕ) := by exact_mod_cast h
    rw [Int.cast_abs] at h7
    refine lt_trans h7 ?_
    norm_num)
  simpa [ofInt] using h1

theorem roundDouble_one : roundDouble 1 = Dbl.fin 1 := by
  have h := roundDouble_exact 1 0 (by norm_num) (by norm_num) (by norm_num)
  simpa using h

/-- A finite non-zero `double` divided by itself is exactly `1`. -/
theorem ddiv_self (a : ℚ) (h : a ≠ 0) : ddiv (Dbl.fin a) (Dbl.fin a) = Dbl.fin 1 := by
  simp [ddiv, h, roundDouble_one]

/-- An `int` divided by `1.0` is itself. -/
theorem ddiv_int_one (v : Int) (h : |v| < 2 ^ 53) :
    ddiv (ofInt v) (ofInt 1) = Dbl.fin v := by
  rw [ofInt_exact v h, ofInt_exact 1 (by norm_num)]
  have h1 := ofInt_exact v h
  simp only [ofInt] at h1
  simp [ddiv, h1]

/-- Rounding to the nearest integer moves a value by at most one half. -/
theorem roundHalfEven_close (x : ℚ) : |(roundHalfEven x : ℚ) - x| ≤ 1 / 2 := by
  have h1 : ((⌊x⌋ : Int) : ℚ) ≤ x := Int.floor_le x
  have h2 : x < ((⌊x⌋ : Int) : ℚ) + 1 := Int.lt_floor_add_one x
  unfold roundHalfEven
  rw [abs_le]
  split_ifs <;> push_cast <;> constructor <;> linarith

theorem roundHalfEven_ne_zero (x : ℚ) (h : 1 / 2 < |x|) : roundHalfEven x ≠ 0 := by
  intro h0
  have h1 := roundHalfEven_close x
  rw [h0] at h1
  simp only [Int.cast_zero, zero_sub, abs_neg] at h1
  linarith

theorem roundHalfEven_abs_le (x : ℚ) (n : Int) (h : |x| ≤ n) : |roundHalfEven x| ≤ n := by
  have h1 := roundHalfEven_close x
  rw [abs_le] at h1 h ⊢
  have h3 : ((roundHalfEven x : Int) : ℚ) < ((n + 1 : Int) : ℚ) := by push_cast; linarith
  have h4 : ((-n - 1 : Int) : ℚ) < ((roundHalfEven x : Int) : ℚ) := by push_cast; linarith
  have h5 : roundHalfEven x < n + 1 := by exact_mod_cast h3
  have h6 : -n - 1 < roundHalfEven x := by exact_mod_cast h4
  constructor <;> omega

/-- A value of magnitude above `2^-1075` (half the least subnormal) and below
`2^1023` rounds to a finite non-zero `double`, at most half a unit in the last
place away. -/
theorem roundDouble_finite_ne_zero (q : ℚ) (hlo : (2 : ℚ) ^ (-1075 : Int) < |q|)
    (hhi : |q| < 2 ^ (1023 : Int)) :
    ∃ a : ℚ, a ≠ 0 ∧ roundDouble q = Dbl.fin a ∧ |a - q| ≤ 2 ^ (binade q - 53) := by
  have h2 : (0 : ℚ) < 2 := by norm_num
  have h2' : (2 : ℚ) ≠ 0 := by norm_num
  have hqpos : 0 < |q| := lt_trans (zpow_pos h2 _) hlo
  have hq0 : q ≠ 0 := abs_pos.1 hqpos
  have hc : ((2 : ℕ) : ℚ) = 2 := by norm_num
  have hl1 : (2 : ℚ) ^ Int.log 2 |q| ≤ |q| := by
    have := Int.zpow_log_le_self (R := ℚ) (b := 2) (by norm_num) hqpos
    rwa [hc] at this
  have hl2 : |q| < (2 : ℚ) ^ (Int.log 2 |q| + 1) := by
    have := Int.lt_zpow_succ_log_self (R := ℚ) (b := 2) (by norm_num) |q|
    rwa [hc] at this
  have hlog : Int.log 2 |q| < 1023 :=
    (zpow_lt_zpow_iff_right₀ (by norm_num : (1 : ℚ) < 2)).1 (lt_of_le_of_lt hl1 hhi)
  have hb1 : Int.log 2 |q| ≤ binade q := le_max_left _ _
  have hb2 : binade q ≤ 1022 := by
    unfold binade
    rcases max_cases (Int.log 2 |q|) (-1022) with ⟨h, _⟩ | ⟨h, _⟩ <;> rw [h] <;> omega
  have hulp : (0 : ℚ) < 2 ^ (binade q - 52) := zpow_pos h2 _
  -- half an ulp is below `|q|`, which is below `2^53` ulps
  have hx1 : (2 : ℚ) ^ (binade q - 52) * (1 / 2) < |q| := by
    have e : (2 : ℚ) ^ (binade q - 52) * (1 / 2) = 2 ^ (binade q - 53) := by
      rw [show binade q - 53 = (binade q - 52) + (-1) by ring, zpow_add₀ h2']
      norm_num
    rw [e]
    unfold binade
    rcases max_cases (Int.log 2 |q|) (-1022) with ⟨h, _⟩ | ⟨h, _⟩ <;> rw [h]
    · refine lt_of_lt_of_le ?_ hl1
      exact (zpow_lt_zpow_iff_right₀ (by norm_num : (1 : ℚ) < 2)).2 (by omega)
    · have : (-1022 : Int) - 53 = -1075 := by norm_num
      rw [this]; exact hlo
  have hx2 : |q| ≤ (2 : ℚ) ^ (binade q - 52) * ((2 ^ 53 : Int) : ℚ) := by
    have e : (2 : ℚ) ^ (binade q - 52) * ((2 ^ 53 : Int) : ℚ) = 2 ^ (binade q + 1) := by
      rw [show binade q + 1 = (binade q - 52) + 53 by ring, zpow_add₀ h2']
      norm_num
    rw [e]
    refine le_trans hl2.le ?_
    exact (zpow_le_zpow_iff_right₀ (by norm_num : (1 : ℚ) < 2)).2 (by omega)
  have habs : |q / 2 ^ (binade q - 52)| = |q| / 2 ^ (binade q - 52) := by
    rw [abs_div, abs_of_pos hulp]
  have hm0 : roundHalfEven (q / 2 ^ (binade q - 52)) ≠ 0 := by
    apply roundHalfEven_ne_zero
    rw [habs, lt_div_iff₀ hulp]
    linarith
  have hm1 : |roundHalfEven (q / 2 ^ (binade q - 52))| ≤ 2 ^ 53 := by
    apply roundHalfEven_abs_le
    rw [habs, div_le_iff₀ hulp]
    linarith
  refine ⟨(roundHalfEven (q / 2 ^ (binade q - 52)) : ℚ) * 2 ^ (binade q - 52), ?_, ?_, ?_⟩
  · exact mul_ne_zero (by exact_mod_cast hm0) hulp.ne'
  rotate_left
  · have hc := roundHalfEven_close (q / 2 ^ (binade q - 52))
    have e1 : (roundHalfEven (q / 2 ^ (binade q - 52)) : ℚ) * 2 ^ (binade q - 52) - q =
        ((roundHalfEven (q / 2 ^ (binade q - 52)) : ℚ) - q / 2 ^ (binade q - 52)) *
          2 ^ (binade q - 52) := by
      field_simp
    have e2 : (2 : ℚ) ^ (binade q - 53) = 1 / 2 * 2 ^ (binade q - 52) := by
      rw [show binade q - 53 = (-1) + (binade q - 52) by ring, zpow_add₀ h2']
      norm_num
    rw [e1, e2, abs_mul, abs_of_pos hulp]
    exact mul_le_mul_of_nonneg_right hc hulp.le
  · simp only [roundDouble, hq0, if_false]
    rw [if_neg]
    rw [not_le, abs_mul, abs_of_pos hulp]
    have h7 : |((roundHalfEven (q / 2 ^ (binade q - 52)) : Int) : ℚ)| ≤ ((2 ^ 53 : Int) : ℚ) := by
      rw [← Int.cast_abs]; exact_mod_cast hm1
    calc |((roundHalfEven (q / 2 ^ (binade q - 52)) : Int) : ℚ)| * 2 ^ (binade q - 52)
        ≤ ((2 ^ 53 : Int) : ℚ) * 2 ^ (binade q - 52) := mul_le_mul_of_nonneg_right h7 hulp.le
      _ = 2 ^ (binade q + 1) := by
        rw [show binade q + 1 = 53 + (binade q - 52) by ring, zpow_add₀ h2']
        norm_num
      _ ≤ 2 ^ (1023 : Int) :=
        (zpow_le_zpow_iff_right₀ (by norm_num : (1 : ℚ) < 2)).2 (by omega)
      _ < 2 ^ (1024 : Int) :=
        (zpow_lt_zpow_iff_right₀ (by norm_num : (1 : ℚ) < 2)).2 (by norm_num)

/-- In the normal range rounding has a relative error of at most `2^-53`. -/
theorem roundDouble_rel_error (q : ℚ) (hlo : (2 : ℚ) ^ (-1022 : Int) ≤ |q|)
    (hhi : |q| < 2 ^ (1023 : Int)) :
    ∃ a : ℚ, roundDouble q = Dbl.fin a ∧ |a - q| ≤ |q| / 2 ^ 53 := by
  have h2 : (0 : ℚ) < 2 := by norm_num
  have hqpos : 0 < |q| := lt_of_lt_of_le (zpow_pos h2 _) hlo
  obtain ⟨a, _, ha, herr⟩ := roundDouble_finite_ne_zero q
    (lt_of_lt_of_le ((zpow_lt_zpow_iff_right₀ (by norm_num : (1 : ℚ) < 2)).2 (by norm_num)) hlo)
    hhi
  refine ⟨a, ha, le_trans herr ?_⟩
  have hc : ((2 : ℕ) : ℚ) = 2 := by norm_num
  have hlog : (-1022 : Int) ≤ Int.log 2 |q| := by
    rw [← Int.zpow_le_iff_le_log (by norm_num) hqpos, hc]; exact hlo
  have hb : binade q = Int.log 2 |q| := by
    unfold binade; exact max_eq_left hlog
  have hl1 : (2 : ℚ) ^ Int.log 2 |q| ≤ |q| := by
    have := Int.zpow_log_le_self (R := ℚ) (b := 2) (by norm_num) hqpos
    rwa [hc] at this
  rw [hb, show Int.log 2 |q| - 53 = Int.log 2 |q| + (-53) by ring,
    zpow_add₀ (by norm_num : (2 : ℚ) ≠ 0), le_div_iff₀ (by positivity)]
  have e : (2 : ℚ) ^ (-53 : Int) * 2 ^ 53 = 1 := by norm_num
  rw [mul_assoc, e, mul_one]
  exact hl1

/-- The sum of at most `10^9` values of `[0, MAX_VALUE]` is in `[0, 10^18]`. -/
theorem bounded_sum_range (data : List Int) (hlen : data.length ≤ 10 ^ 9)
    (hval : ∀ x ∈ data, 0 ≤ x ∧ x ≤ MAX_VALUE) :
    0 ≤ data.sum ∧ data.sum ≤ 10 ^ 18 := by
  have h1 := length_mul_le_sum 0 data (fun x hx => (hval x hx).1)
  have h2 := sum_le_length_mul MAX_VALUE data (fun x hx => (hval x hx).2)
  have h3 : (data.length : Int) ≤ 10 ^ 9 := by exact_mod_cast hlen
  simp only [MAX_VALUE] at h2
  constructor
  · simpa using h1
  · nlinarith

/-- The product `n * 10^9` for `n ≤ 10^9` converts to `double` unchanged: it is
`(n * 5^9) * 2^9` with `n * 5^9 < 2^53`. -/
theorem ofInt_mul_max_value (n : Nat) (hn : n ≤ 10 ^ 9) :
    ofInt ((n : Int) * MAX_VALUE) = Dbl.fin ((n : ℚ) * 1000000000) := by
  have hn2 : (n : Int) ≤ 10 ^ 9 := by exact_mod_cast hn
  have hn0 : (0 : Int) ≤ n := Int.natCast_nonneg n
  have hm : |(n : Int) * 1953125| < 2 ^ 53 := by
    rw [abs_lt]; constructor <;> nlinarith
  have e : (((n : Int) * 1953125 : Int) : ℚ) * 2 ^ (9 : Int) = (n : ℚ) * 1000000000 := by
    push_cast; norm_num; ring
  have h := roundDouble_exact ((n : Int) * 1953125) 9 hm (by norm_num) (by
    rw [e]
    have h5 : (n : ℚ) ≤ 10 ^ 9 := by exact_mod_cast hn
    have h6 : (0 : ℚ) ≤ n := Nat.cast_nonneg n
    rw [abs_of_nonneg (by positivity)]
    calc (n : ℚ) * 1000000000 ≤ 10 ^ 9 * 1000000000 := by nlinarith
      _ < 2 ^ (1024 : Int) := by norm_num)
  rw [e] at h
  simp only [ofInt, MAX_VALUE]
  push_cast
  exact h

/-- The mean `(double)sum / size` of a sum in `[0, 10^18]` over `1 ≤ size ≤ 10^9`
elements is finite and within a relative error of `2^-51` of the exact
quotient. -/
theorem mean_accuracy (s : Int) (n : Nat) (hs0 : 0 ≤ s) (hs1 : s ≤ 10 ^ 18) (hn0 : 1 ≤ n)
    (hn1 : n ≤ 10 ^ 9) :
    ∃ m : ℚ, ddiv (ofInt s) (ofInt n) = Dbl.fin m ∧
      |m - (s : ℚ) / n| ≤ (s : ℚ) / n / 2 ^ 51 := by
  have hn : ofInt (n : Int) = Dbl.fin ((n : Int) : ℚ) := ofInt_exact n (by
    have : (n : Int) ≤ 10 ^ 9 := by exact_mod_cast hn1
    rw [abs_lt]; constructor <;> omega)
  have hnq : (1 : ℚ) ≤ n := by exact_mod_cast hn0
  have hnq1 : (n : ℚ) ≤ 10 ^ 9 := by exact_mod_cast hn1
  have hnpos : (0 : ℚ) < n := by linarith
  have hne : ((n : Int) : ℚ) ≠ 0 := by push_cast; exact hnpos.ne'
  rcases eq_or_lt_of_le hs0 with h0 | hpos
  · refine ⟨0, ?_, by rw [← h0]; simp⟩
    rw [← h0, hn, ofInt_exact 0 (by norm_num)]
    have hne2 : n ≠ 0 := by omega
    simp [ddiv, hne2, roundDouble_zero]
  · have hsq : (1 : ℚ) ≤ s := by exact_mod_cast hpos
    have hsq1 : (s : ℚ) ≤ 10 ^ 18 := by exact_mod_cast hs1
    obtain ⟨a, ha, herr⟩ := roundDouble_rel_error (s : ℚ)
      (by rw [abs_of_pos (by linarith)]
          exact le_trans (by norm_num) hsq)
      (by rw [abs_of_pos (by linarith)]
          exact lt_of_le_of_lt hsq1 (by norm_num))
    rw [abs_of_pos (by linarith : (0 : ℚ) < s), abs_le] at herr
    have ha0 : (1 : ℚ) / 2 ≤ a := by
      have : (s : ℚ) / 2 ^ 53 ≤ s / 2 := by
        rw [div_le_div_iff₀ (by positivity) (by norm_num)]
        nlinarith
      linarith
    have ha1 : a ≤ 2 * 10 ^ 18 := by
      have : (s : ℚ) / 2 ^ 53 ≤ s := div_le_self (by linarith) (by norm_num)
      linarith
    have hapos : 0 < a / n := div_pos (by linarith) hnpos
    obtain ⟨m, hm, herr2⟩ := roundDouble_rel_error (a / n)
      (by rw [abs_of_pos hapos, le_div_iff₀ hnpos]
          calc (2 : ℚ) ^ (-1022 : Int) * n ≤ 2 ^ (-1022 : Int) * 10 ^ 9 :=
                mul_le_mul_of_nonneg_left hnq1 (by positivity)
            _ ≤ 1 / 2 := by norm_num
            _ ≤ a := ha0)
      (by rw [abs_of_pos hapos, div_lt_iff₀ hnpos]
          calc a ≤ 2 * 10 ^ 18 := ha1
            _ < 2 ^ (1023 : Int) * 1 := by norm_num
            _ ≤ 2 ^ (1023 : Int) * n := mul_le_mul_of_nonneg_left hnq (by positivity))
    rw [abs_of_pos hapos, abs_le] at herr2
    refine ⟨m, ?_, ?_⟩
    · have ha2 : ofInt s = Dbl.fin a := ha
      rw [ha2, hn]
      simp only [ddiv, hne, if_false]
      push_cast
      exact hm
    · -- two roundings, each of relative error at most `2^-53`
      have hsn : (0 : ℚ) < s / n := div_pos (by linarith) hnpos
      have e1 : a / n - (s : ℚ) / n = (a - s) / n := by ring
      have e2 : (s : ℚ) / 2 ^ 53 / n = s / n / 2 ^ 53 := by ring
      have h3 : a / n - s / n ≤ s / n / 2 ^ 53 := by
        rw [e1, ← e2]; exact div_le_div_of_nonneg_right herr.2 hnpos.le
      have h4 : -(s / n / 2 ^ 53) ≤ a / n - s / n := by
        rw [e1, ← e2, ← neg_div]; exact div_le_div_of_nonneg_right herr.1 hnpos.le
      have h5 : a / n / 2 ^ 53 ≤ 2 * (s / n / 2 ^ 53) := by
        have : a / n ≤ 2 * (s / n) := by
          have : (s : ℚ) / n / 2 ^ 53 ≤ s / n := div_le_self hsn.le (by norm_num)
          linarith
        rw [div_le_iff₀ (by positivity)]
        calc a / n ≤ 2 * (s / n) := this
          _ = 2 * (s / n / 2 ^ 53) * 2 ^ 53 := by field_simp; ring
      have e3 : (s : ℚ) / n / 2 ^ 51 = 4 * (s / n / 2 ^ 53) := by
        field_simp; ring
      rw [abs_le, e3]
      constructor <;> linarith

/-! ## Lemmas on the clock and the average -/

/-- As a `double`, `NUM_RUNS` is `5.0`; the average of a finite total is the
rounded fifth of it. -/
theorem avg_of_fin (q : ℚ) : avg_of (Dbl.fin q) = roundDouble (q / 5) := by
  have h := ofInt_exact 5 (by norm_num)
  simp only [avg_of, NUM_RUNS, Nat.cast_ofNat, h]
  simp [ddiv]

theorem dsub_self (a : ℚ) : dsub (Dbl.fin a) (Dbl.fin a) = Dbl.fin 0 := by
  simp [dsub, dneg, dadd, roundDouble_zero]

theorem dadd_zero_zero : dadd (Dbl.fin 0) (Dbl.fin 0) = Dbl.fin 0 := by
  simp [dadd, roundDouble_zero]

/-- The clock reading 1700000000 s, 0 µs as a `double`. -/
theorem get_time_stuck : get_time (1700000000, 0) = Dbl.fin 1700000000 := by
  obtain ⟨c, _, hc, _⟩ := roundDouble_finite_ne_zero (1 / 1000000)
    (by rw [abs_of_pos (by norm_num)]; norm_num) (by rw [abs_of_pos (by norm_num)]; norm_num)
  have h0 := ofInt_exact 0 (by norm_num)
  have h1 := ofInt_exact 1700000000 (by norm_num)
  have h2 : roundDouble 1700000000 = Dbl.fin 1700000000 := by
    simpa [ofInt] using h1
  simp only [get_time, hc, h0, h1]
  simp [dmul, dadd, roundDouble_zero, h2]

theorem total_time_stuck (t : Nat) : total_time env_stuck_clock t = Dbl.fin 0 := by
  have h : ∀ run : Nat, run_time env_stuck_clock t run = Dbl.fin 0 := by
    intro run
    simp only [run_time, env_stuck_clock, get_time_stuck, dsub_self]
  simp [total_time, NUM_RUNS, List.range_succ, h, dadd_zero_zero]

/-- The speedup of the first row printed is the one-worker average divided by
itself. -/
theorem bench_rows_head_speedup (env : Env) (data : List Int) :
    ((bench_rows env data).map Row.speedup).head? =
      some (ddiv (avg_of (total_time env 0)) (avg_of (total_time env 0))) := rfl

/-! ## The reductions: extrema, serial against parallel, the accumulator -/

/-- C1: for a non-empty `int` array, the `*min_val` that `serial_min_max_mean`
stores occurs in the array and is below every element, and the `*max_val` it
stores occurs in the array and is above every element. -/
theorem serial_min_max_mean_extrema (data : List Int) (hsize : 1 ≤ data.length)
    (hint : ∀ x ∈ data, INT_MIN ≤ x ∧ x ≤ INT_MAX) :
    ((serial_min_max_mean data).min_val ∈ data ∧
      ∀ x ∈ data, (serial_min_max_mean data).min_val ≤ x) ∧
    ((serial_min_max_mean data).max_val ∈ data ∧
      ∀ x ∈ data, x ≤ (serial_min_max_mean data).max_val) := by
  have hne : data ≠ [] := by
    intro h; rw [h] at hsize; simp at hsize
  exact ⟨serial_scan_min data hne hint, serial_scan_max data hne hint⟩

theorem serial_min_max_mean_extrema_witness :
    ((serial_min_max_mean [3, -1, 7]).min_val ∈ [3, -1, 7] ∧
      ∀ x ∈ [3, -1, 7], (serial_min_max_mean [3, -1, 7]).min_val ≤ x) ∧
    ((serial_min_max_mean [3, -1, 7]).max_val ∈ [3, -1, 7] ∧
      ∀ x ∈ [3, -1, 7], x ≤ (serial_min_max_mean [3, -1, 7]).max_val) :=
  serial_min_max_mean_extrema [3, -1, 7] (by decide) (by decide)

/-- C2: for a non-empty array and every split of its index range into
contiguous chunks (of which there is at least one, and which may be empty),
`parallel_min_max_mean` gives the same min, the same max, the same 64-bit sum
and the same mean as `serial_min_max_mean`, in whatever order the workers'
results are merged; so the result is the same for every other split, that is,
for every worker count. -/
theorem parallel_matches_serial (data : List Int) (hne : data ≠ []) (sizes : List Nat)
    (hsplit : sizes.sum = data.length) :
    1 ≤ sizes.length ∧
    (parallel_min_max_mean data sizes).min_val = (serial_min_max_mean data).min_val ∧
    (parallel_min_max_mean data sizes).max_val = (serial_min_max_mean data).max_val ∧
    (parallel_scan data sizes).sum = (serial_scan data).sum ∧
    (parallel_min_max_mean data sizes).mean_val = (serial_min_max_mean data).mean_val ∧
    (∀ merged : List Acc, merged.Perm (worker_results data sizes) →
      finish (merged.foldl combine acc_init) data.length = serial_min_max_mean data) ∧
    (∀ sizes2 : List Nat, sizes2.sum = data.length →
      parallel_min_max_mean data sizes2 = parallel_min_max_mean data sizes) := by
  have h := parallel_scan_eq_serial data sizes hsplit
  have hk : 1 ≤ sizes.length := by
    cases sizes with
    | nil =>
      exfalso; apply hne
      exact List.length_eq_zero.1 (by simpa using hsplit.symm)
    | cons n rest => simp
  refine ⟨hk, ?_, ?_, ?_, ?_, ?_, ?_⟩
  · simp [parallel_min_max_mean, serial_min_max_mean, finish, h]
  · simp [parallel_min_max_mean, serial_min_max_mean, finish, h]
  · rw [h]
  · simp [parallel_min_max_mean, serial_min_max_mean, finish, h]
  · intro merged hp
    have h2 := foldl_combine_perm merged _ hp acc_init
    unfold serial_min_max_mean
    rw [h2, ← h]; rfl
  · intro sizes2 h2
    unfold parallel_min_max_mean
    rw [h, parallel_scan_eq_serial data sizes2 h2]

theorem parallel_matches_serial_witness :
    1 ≤ [1, 0, 2].length ∧
    (parallel_min_max_mean [3, -1, 7] [1, 0, 2]).min_val = (serial_min_max_mean [3, -1, 7]).min_val ∧
    (parallel_min_max_mean [3, -1, 7] [1, 0, 2]).max_val = (serial_min_max_mean [3, -1, 7]).max_val ∧
    (parallel_scan [3, -1, 7] [1, 0, 2]).sum = (serial_scan [3, -1, 7]).sum ∧
    (parallel_min_max_mean [3, -1, 7] [1, 0, 2]).mean_val = (serial_min_max_mean [3, -1, 7]).mean_val ∧
    (∀ merged : List Acc, merged.Perm (worker_results [3, -1, 7] [1, 0, 2]) →
      finish (merged.foldl combine acc_init) [3, -1, 7].length = serial_min_max_mean [3, -1, 7]) ∧
    (∀ sizes2 : List Nat, sizes2.sum = [3, -1, 7].length →
      parallel_min_max_mean [3, -1, 7] sizes2 = parallel_min_max_mean [3, -1, 7] [1, 0, 2]) :=
  parallel_matches_serial [3, -1, 7] (by decide) [1, 0, 2] (by decide)

/-- C7: on the one-element array `[v]`, for every `int` `v` (`INT_MIN` and
`INT_MAX` included), `serial_min_max_mean`, and `parallel_min_max_mean` under
every chunking, give min `v`, max `v` and mean exactly `v`. -/
theorem single_element_result (v : Int) (hv : INT_MIN ≤ v ∧ v ≤ INT_MAX) :
    serial_min_max_mean [v] = { min_val := v, max_val := v, mean_val := Dbl.fin v } ∧
    ∀ sizes : List Nat, sizes.sum = [v].length →
      parallel_min_max_mean [v] sizes = { min_val := v, max_val := v, mean_val := Dbl.fin v } := by
  obtain ⟨h1, h2⟩ := hv
  simp only [INT_MIN, INT_MAX] at h1 h2
  have hs : serial_scan [v] = { min_val := v, max_val := v, sum := v } := by
    simp only [serial_scan, scan, List.foldl_cons, List.foldl_nil, scan_step, acc_init,
      INT_MAX, INT_MIN, Acc.mk.injEq]
    refine ⟨?_, ?_, ?_⟩
    · split_ifs <;> omega
    · split_ifs <;> omega
    · unfold wrap64; omega
  have hm : ddiv (ofInt v) (ofInt 1) = Dbl.fin v :=
    ddiv_int_one v (by rw [abs_lt]; constructor <;> omega)
  have hser : serial_min_max_mean [v] =
      { min_val := v, max_val := v, mean_val := Dbl.fin v } := by
    simp only [serial_min_max_mean, finish, hs, List.length_singleton, Nat.cast_one,
      Result.mk.injEq, true_and]
    exact hm
  refine ⟨hser, ?_⟩
  intro sizes hsz
  unfold parallel_min_max_mean
  rw [parallel_scan_eq_serial [v] sizes hsz]
  exact hser

theorem single_element_result_witness :
    serial_min_max_mean [INT_MIN] =
      { min_val := INT_MIN, max_val := INT_MIN, mean_val := Dbl.fin INT_MIN } ∧
    ∀ sizes : List Nat, sizes.sum = [INT_MIN].length →
      parallel_min_max_mean [INT_MIN] sizes =
        { min_val := INT_MIN, max_val := INT_MIN, mean_val := Dbl.fin INT_MIN } :=
  single_element_result INT_MIN (by decide)

/-- C10: for a non-empty `int` array whose sum fits the 64-bit accumulator, the
result of `serial_min_max_mean` has `min * size ≤ sum ≤ max * size`, that is
`min ≤ sum / size ≤ max` in exact arithmetic, and so `min ≤ max`. -/
theorem serial_min_le_mean_le_max (data : List Int) (hsize : 1 ≤ data.length)
    (hint : ∀ x ∈ data, INT_MIN ≤ x ∧ x ≤ INT_MAX)
    (hsum : -(2 ^ 63) ≤ data.sum ∧ data.sum < 2 ^ 63) :
    (serial_min_max_mean data).min_val * data.length ≤ (serial_scan data).sum ∧
    (serial_scan data).sum ≤ (serial_min_max_mean data).max_val * data.length ∧
    ((serial_min_max_mean data).min_val : ℚ) ≤ ((serial_scan data).sum : ℚ) / data.length ∧
    ((serial_scan data).sum : ℚ) / data.length ≤ ((serial_min_max_mean data).max_val : ℚ) ∧
    (serial_min_max_mean data).min_val ≤ (serial_min_max_mean data).max_val := by
  have hne : data ≠ [] := by
    intro h; rw [h] at hsize; simp at hsize
  have hmin := (serial_scan_min data hne hint).2
  have hmax := (serial_scan_max data hne hint).2
  have hs : (serial_scan data).sum = data.sum := by
    rw [serial_scan_sum, wrap64_of_range _ hsum.1 hsum.2]
  have h1 := length_mul_le_sum _ data hmin
  have h2 := sum_le_length_mul _ data hmax
  have hpos : (0 : ℚ) < (data.length : ℚ) := by exact_mod_cast hsize
  have e1 : (serial_min_max_mean data).min_val = (serial_scan data).min_val := rfl
  have e2 : (serial_min_max_mean data).max_val = (serial_scan data).max_val := rfl
  rw [e1, e2, hs]
  refine ⟨h1, h2, ?_, ?_, ?_⟩
  · rw [le_div_iff₀ hpos]; exact_mod_cast h1
  · rw [div_le_iff₀ hpos]; exact_mod_cast h2
  · obtain ⟨y, hy⟩ := List.exists_mem_of_ne_nil data hne
    exact le_trans (hmin y hy) (hmax y hy)

theorem serial_min_le_mean_le_max_witness :
    (serial_min_max_mean [3, -1, 7]).min_val * [3, -1, 7].length ≤ (serial_scan [3, -1, 7]).sum ∧
    (serial_scan [3, -1, 7]).sum ≤ (serial_min_max_mean [3, -1, 7]).max_val * [3, -1, 7].length ∧
    ((serial_min_max_mean [3, -1, 7]).min_val : ℚ) ≤
      ((serial_scan [3, -1, 7]).sum : ℚ) / [3, -1, 7].length ∧
    ((serial_scan [3, -1, 7]).sum : ℚ) / [3, -1, 7].length ≤
      ((serial_min_max_mean [3, -1, 7]).max_val : ℚ) ∧
    (serial_min_max_mean [3, -1, 7]).min_val ≤ (serial_min_max_mean [3, -1, 7]).max_val :=
  serial_min_le_mean_le_max [3, -1, 7] (by decide) (by decide) (by decide)

/-- C3: for an array of `1 ≤ N ≤ 10^9` elements of `[0, 10^9]`, the 64-bit
accumulator of `serial_min_max_mean` never overflows: after every number of
iterations it holds the exact sum of the elements read, which is below `2^63`;
the final sum is the exact sum and the mean is that sum divided by `N` (the
`double` quotient `(double)sum / size`, a finite value within `2^-51` of the
exact quotient in relative terms); for the array whose elements all equal
`MAX_VALUE = 10^9` the sum is `N * MAX_VALUE` and the mean is exactly
`MAX_VALUE`. -/
theorem serial_sum_no_overflow (data : List Int) (hpos : 1 ≤ data.length)
    (hlen : data.length ≤ 10 ^ 9) (hval : ∀ x ∈ data, 0 ≤ x ∧ x ≤ MAX_VALUE) :
    (∀ k ≤ data.length,
      (serial_scan (data.take k)).sum = (data.take k).sum ∧
      0 ≤ (data.take k).sum ∧ (data.take k).sum < 2 ^ 63) ∧
    (serial_scan data).sum = data.sum ∧
    (serial_min_max_mean data).mean_val = ddiv (ofInt data.sum) (ofInt data.length) ∧
    (∃ m : ℚ, (serial_min_max_mean data).mean_val = Dbl.fin m ∧
      |m - (data.sum : ℚ) / data.length| ≤ (data.sum : ℚ) / data.length / 2 ^ 51) ∧
    (data = List.replicate data.length MAX_VALUE →
      (serial_scan data).sum = data.length * MAX_VALUE ∧
      (serial_min_max_mean data).mean_val = Dbl.fin MAX_VALUE) := by
  have hexact : ∀ p : List Int, p.length ≤ 10 ^ 9 → (∀ x ∈ p, 0 ≤ x ∧ x ≤ MAX_VALUE) →
      (serial_scan p).sum = p.sum ∧ 0 ≤ p.sum ∧ p.sum < 2 ^ 63 := by
    intro p hp hv
    obtain ⟨h1, h2⟩ := bounded_sum_range p hp hv
    refine ⟨?_, h1, by omega⟩
    rw [serial_scan_sum, wrap64_of_range _ (by omega) (by omega)]
  have hfull := hexact data hlen hval
  have hmean : (serial_min_max_mean data).mean_val =
      ddiv (ofInt data.sum) (ofInt data.length) := by
    simp only [serial_min_max_mean, finish, hfull.1]
  have hacc : ∃ m : ℚ, (serial_min_max_mean data).mean_val = Dbl.fin m ∧
      |m - (data.sum : ℚ) / data.length| ≤ (data.sum : ℚ) / data.length / 2 ^ 51 := by
    obtain ⟨h1, h2⟩ := bounded_sum_range data hlen hval
    rw [hmean]
    exact mean_accuracy data.sum data.length h1 h2 hpos hlen
  refine ⟨?_, hfull.1, hmean, hacc, ?_⟩
  · intro k _
    apply hexact
    · rw [List.length_take]; omega
    · intro x hx; exact hval x (List.mem_of_mem_take hx)
  · intro hconst
    have hsum : data.sum = data.length * MAX_VALUE := by
      conv_lhs => rw [hconst]
      simp
    refine ⟨by rw [hfull.1, hsum], ?_⟩
    rw [hmean, hsum, ofInt_mul_max_value data.length hlen,
      ofInt_exact data.length (by
        have : (data.length : Int) ≤ 10 ^ 9 := by exact_mod_cast hlen
        rw [abs_lt]; constructor <;> omega)]
    have hne : (data.length : ℚ) ≠ 0 := by
      have : (0 : ℚ) < data.length := by exact_mod_cast hpos
      exact this.ne'
    have hq : (data.length : ℚ) * 1000000000 / ((data.length : Int) : ℚ) = ((1000000000 : Int) : ℚ) := by
      push_cast
      field_simp
    have hr := ofInt_exact 1000000000 (by norm_num)
    simp only [ofInt] at hr
    have hne2 : ((data.length : Int) : ℚ) ≠ 0 := by exact_mod_cast hne
    simp only [ddiv, hne2, if_false, hq, hr, MAX_VALUE]

theorem serial_sum_no_overflow_witness :
    (∀ k ≤ [MAX_VALUE, MAX_VALUE].length,
      (serial_scan ([MAX_VALUE, MAX_VALUE].take k)).sum = ([MAX_VALUE, MAX_VALUE].take k).sum ∧
      0 ≤ ([MAX_VALUE, MAX_VALUE].take k).sum ∧ ([MAX_VALUE, MAX_VALUE].take k).sum < 2 ^ 63) ∧
    (serial_scan [MAX_VALUE, MAX_VALUE]).sum = [MAX_VALUE, MAX_VALUE].sum ∧
    (serial_min_max_mean [MAX_VALUE, MAX_VALUE]).mean_val =
      ddiv (ofInt [MAX_VALUE, MAX_VALUE].sum) (ofInt [MAX_VALUE, MAX_VALUE].length) ∧
    (∃ m : ℚ, (serial_min_max_mean [MAX_VALUE, MAX_VALUE]).mean_val = Dbl.fin m ∧
      |m - ([MAX_VALUE, MAX_VALUE].sum : ℚ) / [MAX_VALUE, MAX_VALUE].length| ≤
        ([MAX_VALUE, MAX_VALUE].sum : ℚ) / [MAX_VALUE, MAX_VALUE].length / 2 ^ 51) ∧
    (serial_scan [MAX_VALUE, MAX_VALUE]).sum = [MAX_VALUE, MAX_VALUE].length * MAX_VALUE ∧
    (serial_min_max_mean [MAX_VALUE, MAX_VALUE]).mean_val = Dbl.fin MAX_VALUE :=
  have h := serial_sum_no_overflow [MAX_VALUE, MAX_VALUE] (by decide) (by decide) (by decide)
  ⟨h.1, h.2.1, h.2.2.1, h.2.2.2.1, h.2.2.2.2 rfl⟩

/-! ## Data generation: range and distribution -/

/-- For a non-negative raw value C's `%` is the mathematical remainder, a value
of `[0, MAX_VALUE]`. -/
theorem raw_to_value_range (raw : Int) (h : 0 ≤ raw) :
    raw_to_value raw = raw % (MAX_VALUE + 1) ∧
    0 ≤ raw_to_value raw ∧ raw_to_value raw ≤ MAX_VALUE := by
  have h1 : raw_to_value raw = raw % (MAX_VALUE + 1) := by
    unfold raw_to_value
    exact Int.tmod_eq_emod h (by simp [MAX_VALUE])
  refine ⟨h1, ?_, ?_⟩ <;> rw [h1] <;> simp only [MAX_VALUE] <;> omega

theorem fill_chunk_length (rand_r : Nat → Nat × Int) (n : Nat) :
    ∀ seed : Nat, (fill_chunk rand_r seed n).length = n := by
  induction n with
  | zero => intro seed; simp [fill_chunk]
  | succ n ih => intro seed; simp [fill_chunk, ih]

theorem fill_chunk_mem (rand_r : Nat → Nat × Int) (n : Nat) :
    ∀ seed : Nat, ∀ x ∈ fill_chunk rand_r seed n, ∃ s : Nat, x = raw_to_value (rand_r s).2 := by
  induction n with
  | zero => intro seed x hx; simp [fill_chunk] at hx
  | succ n ih =>
    intro seed x hx
    simp only [fill_chunk, List.mem_cons] at hx
    rcases hx with rfl | hx
    · exact ⟨seed, rfl⟩
    · exact ih _ x hx

theorem fill_workers_length (rand_r : Nat → Nat × Int) (now : Nat) (chunks : List Nat) :
    ∀ tid : Nat, (fill_workers rand_r now tid chunks).length = chunks.sum := by
  induction chunks with
  | nil => intro tid; simp [fill_workers]
  | cons n rest ih => intro tid; simp [fill_workers, fill_chunk_length, ih]

theorem fill_workers_mem (rand_r : Nat → Nat × Int) (now : Nat) (chunks : List Nat) :
    ∀ tid : Nat, ∀ x ∈ fill_workers rand_r now tid chunks,
      ∃ s : Nat, x = raw_to_value (rand_r s).2 := by
  induction chunks with
  | nil => intro tid x hx; simp [fill_workers] at hx
  | cons n rest ih =>
    intro tid x hx
    simp only [fill_workers, List.mem_append] at hx
    rcases hx with hx | hx
    · exact fill_chunk_mem rand_r n _ x hx
    · exact ih _ x hx

/-- C4: whatever `size` and whatever raw values in `[0, RAND_MAX]` `rand_r`
returns, `generate_data` writes all `size` elements, each of them is
`raw % (MAX_VALUE + 1)` for a raw value returned and lies in `[0, MAX_VALUE]`,
with `MAX_VALUE = 10^9`; and `MAX_VALUE + 1` is within a 32-bit `int`. -/
theorem generate_data_in_domain (rand_r : Nat → Nat × Int) (now : Nat) (chunks : List Nat)
    (hraw : ∀ s : Nat, 0 ≤ (rand_r s).2 ∧ (rand_r s).2 ≤ RAND_MAX) :
    (generate_data rand_r now chunks).length = chunks.sum ∧
    (∀ x ∈ generate_data rand_r now chunks,
      (∃ s : Nat, x = Int.tmod (rand_r s).2 (MAX_VALUE + 1) ∧
        x = (rand_r s).2 % (MAX_VALUE + 1)) ∧
      0 ≤ x ∧ x ≤ MAX_VALUE) ∧
    MAX_VALUE = 10 ^ 9 ∧ MAX_VALUE + 1 ≤ INT_MAX := by
  refine ⟨fill_workers_length rand_r now chunks 0, ?_, by decide, by decide⟩
  intro x hx
  obtain ⟨s, hs⟩ := fill_workers_mem rand_r now chunks 0 x hx
  obtain ⟨h1, h2, h3⟩ := raw_to_value_range (rand_r s).2 (hraw s).1
  rw [hs]
  exact ⟨⟨s, rfl, h1⟩, h2, h3⟩

theorem generate_data_in_domain_witness :
    (generate_data (fun s => (s + 1, (s : Int) % 2147483648)) 5 [2, 0, 3]).length = [2, 0, 3].sum ∧
    (∀ x ∈ generate_data (fun s => (s + 1, (s : Int) % 2147483648)) 5 [2, 0, 3],
      (∃ s : Nat, x = Int.tmod ((s : Int) % 2147483648) (MAX_VALUE + 1) ∧
        x = ((s : Int) % 2147483648) % (MAX_VALUE + 1)) ∧
      0 ≤ x ∧ x ≤ MAX_VALUE) ∧
    MAX_VALUE = 10 ^ 9 ∧ MAX_VALUE + 1 ≤ INT_MAX :=
  generate_data_in_domain (fun s => (s + 1, (s : Int) % 2147483648)) 5 [2, 0, 3]
    (fun s => by simp only [RAND_MAX]; omega)

/-- C5: the raw values of `[0, RAND_MAX]`, `RAND_MAX = 2^31 - 1`, are not spread
evenly by `r % (MAX_VALUE + 1)`: three of them give `0`, only two give
`MAX_VALUE`. -/
theorem preimage_count_uneven :
    RAND_MAX = 2 ^ 31 - 1 ∧ preimage_count 0 = 3 ∧ preimage_count MAX_VALUE = 2 := by
  have h0 : (Finset.range (RAND_MAX.toNat + 1)).filter (fun r : Nat => raw_to_value r = 0) =
      {0, 1000000001, 2000000002} := by
    ext r
    have hr := (raw_to_value_range (r : Int) (Int.natCast_nonneg r)).1
    simp only [Finset.mem_filter, Finset.mem_range, Finset.mem_insert, Finset.mem_singleton, hr]
    simp only [RAND_MAX, MAX_VALUE]
    omega
  have h1 : (Finset.range (RAND_MAX.toNat + 1)).filter
      (fun r : Nat => raw_to_value r = MAX_VALUE) = {1000000000, 2000000001} := by
    ext r
    have hr := (raw_to_value_range (r : Int) (Int.natCast_nonneg r)).1
    simp only [Finset.mem_filter, Finset.mem_range, Finset.mem_insert, Finset.mem_singleton, hr]
    simp only [RAND_MAX, MAX_VALUE]
    omega
  refine ⟨by decide, ?_, ?_⟩
  · unfold preimage_count; rw [h0]; rfl
  · unfold preimage_count; rw [h1]; rfl

/-! ## The benchmark harness: speedup, rows, exit status -/

/-- C6 (as amended): in the one-worker configuration the speedup
`serial_time / avg_time`, `serial_time` having just been set to
`avg_time = total_time / NUM_RUNS`, is exactly `1` whenever `avg_time` is a
finite non-zero value, and that is the case for every finite total above
`2.5 * 2^-1074`, so for every positive time the clock can measure. -/
theorem speedup_one_worker (serial_time : Dbl) :
    (∀ (total : Dbl) (a : ℚ), a ≠ 0 → avg_of total = Dbl.fin a →
      (speedup_step serial_time 1 total).1 = avg_of total ∧
      (speedup_step serial_time 1 total).2 = Dbl.fin 1) ∧
    (∀ q : ℚ, 5 / 2 ^ 1075 < q → q < 2 ^ 1024 →
      (speedup_step serial_time 1 (Dbl.fin q)).2 = Dbl.fin 1) := by
  have key : ∀ (total : Dbl) (a : ℚ), a ≠ 0 → avg_of total = Dbl.fin a →
      (speedup_step serial_time 1 total).1 = avg_of total ∧
      (speedup_step serial_time 1 total).2 = Dbl.fin 1 := by
    intro total a ha havg
    simp only [speedup_step, if_true, havg, ddiv_self a ha, and_self]
  refine ⟨key, ?_⟩
  intro q h1 h2
  have hq : 0 < q := lt_trans (by positivity) h1
  obtain ⟨a, ha, hr, _⟩ := roundDouble_finite_ne_zero (q / 5)
    (by
      rw [abs_of_pos (by positivity), lt_div_iff₀ (by norm_num)]
      have e : (2 : ℚ) ^ (-1075 : Int) * 5 = 5 / 2 ^ 1075 := by
        rw [zpow_neg]; norm_cast; ring
      rw [e]; exact h1)
    (by
      rw [abs_of_pos (by positivity), div_lt_iff₀ (by norm_num)]
      have e : (2 : ℚ) ^ (1023 : Int) * 5 = 5 / 2 * 2 ^ 1024 := by
        norm_num
      rw [e]; linarith)
  exact (key (Dbl.fin q) a ha (by rw [avg_of_fin, hr])).2

theorem speedup_one_worker_witness :
    (speedup_step (Dbl.fin 0) 1 (Dbl.fin (3 / 1000000))).2 = Dbl.fin 1 :=
  (speedup_one_worker (Dbl.fin 0)).2 (3 / 1000000) (by norm_num) (by norm_num)

/-- C6 (as stated) fails for a total of `0`: the clock of `env_stuck_clock` does
not advance, the total elapsed time of the one-worker configuration is `0`, so
is `avg_time`, and the speedup is `0/0`, a NaN and not `1`; that NaN is the
speedup of the first row `main` prints in that execution. -/
theorem speedup_zero_total_is_nan :
    total_time env_stuck_clock 0 = Dbl.fin 0 ∧
    avg_of (Dbl.fin 0) = Dbl.fin 0 ∧
    (speedup_step (Dbl.fin 0) 1 (Dbl.fin 0)).2 = Dbl.nan ∧
    (speedup_step (Dbl.fin 0) 1 (Dbl.fin 0)).2 ≠ Dbl.fin 1 ∧
    ((bench_rows env_stuck_clock (generate_data env_stuck_clock.rand_r env_stuck_clock.now
        env_stuck_clock.gen_chunks)).map Row.speedup).head? = some Dbl.nan := by
  have h1 : avg_of (Dbl.fin 0) = Dbl.fin 0 := by
    rw [avg_of_fin]; simp [roundDouble_zero]
  have h2 : (speedup_step (Dbl.fin 0) 1 (Dbl.fin 0)).2 = Dbl.nan := by
    simp [speedup_step, h1, ddiv]
  refine ⟨total_time_stuck 0, h1, h2, ?_, ?_⟩
  · rw [h2]; exact fun h => Dbl.noConfusion h
  · rw [bench_rows_head_speedup, total_time_stuck, h1]
    simp [ddiv]

/-- C9: in the loop over `thread_counts = {1, 2, 4, 6, 8, 10, 12, 14, 16}`,
whatever the measured run times, the `avg_time` of each configuration is the sum
of its `NUM_RUNS = 5` run times divided by `5`, and the speedup emitted for each
configuration is the `avg_time` of the one-worker configuration (the first)
divided by the configuration's own `avg_time`; the start value `0` of
`serial_time` plays no part. -/
theorem bench_rows_speedup (env : Env) (data : List Int) :
    bench_rows env data =
      (List.zip (List.range 9) thread_counts).map (fun p =>
        { num_threads := p.2
          avg_time := avg_of (total_time env p.1)
          speedup := ddiv (avg_of (total_time env 0)) (avg_of (total_time env p.1))
          final_min := (run_reduction env data p.1 0 p.2).min_val
          final_max := (run_reduction env data p.1 0 p.2).max_val
          final_mean := (run_reduction env data p.1 0 p.2).mean_val }) ∧
    (∀ t : Nat, total_time env t =
      dadd (dadd (dadd (dadd (dadd (Dbl.fin 0) (run_time env t 0)) (run_time env t 1))
        (run_time env t 2)) (run_time env t 3)) (run_time env t 4)) ∧
    (∀ total : Dbl, avg_of total = ddiv total (Dbl.fin 5)) ∧
    (∀ start : Dbl, bench_loop env data start 0 thread_counts = bench_rows env data) := by
  refine ⟨rfl, fun t => rfl, ?_, fun start => rfl⟩
  intro total
  have h := ofInt_exact 5 (by norm_num)
  simp only [avg_of, NUM_RUNS, Nat.cast_ofNat, h, Int.cast_ofNat]

/-- C8 (as amended): `main` returns `1` exactly when `malloc` returns NULL, and
then it has only printed the banner and the failure message (no data
generation, no reduction, `results.csv` neither opened nor written); when the
allocation succeeds and `results.csv` can be opened, `main` returns `0`. -/
theorem main_exit_status (env : Env) :
    ((main env).status = Status.returned 1 ↔ env.malloc_ok = false) ∧
    (env.malloc_ok = false →
      (main env).trace = banner ++ [Event.printf "Memory allocation failed!\n"] ∧
      ∀ e ∈ (main env).trace, ∃ text : String, e = Event.printf text) ∧
    (env.malloc_ok = true → env.fopen_ok = true → (main env).status = Status.returned 0) := by
  refine ⟨?_, ?_, ?_⟩
  · cases hm : env.malloc_ok <;> cases hf : env.fopen_ok <;> simp [main, hm, hf]
  · intro hm
    have ht : (main env).trace = banner ++ [Event.printf "Memory allocation failed!\n"] := by
      simp [main, hm]
    refine ⟨ht, ?_⟩
    intro e he
    rw [ht] at he
    simp only [banner, List.cons_append, List.nil_append, List.mem_cons, List.mem_singleton,
      List.not_mem_nil, or_false] at he
    rcases he with h | h | h | h <;> exact ⟨_, h⟩
  · intro hm hf
    simp [main, hm, hf]

theorem main_exit_status_witness :
    ((main env_no_memory).trace = banner ++ [Event.printf "Memory allocation failed!\n"] ∧
      ∀ e ∈ (main env_no_memory).trace, ∃ text : String, e = Event.printf text) ∧
    (main env_stuck_clock).status = Status.returned 0 :=
  ⟨(main_exit_status env_no_memory).2.1 rfl, (main_exit_status env_stuck_clock).2.2 rfl rfl⟩

/-- C8 (as stated) fails when `malloc` succeeds and `fopen` returns NULL: the
stream is passed to `fprintf` unchecked, and `main` does not return `0`. -/
theorem main_no_file_not_zero :
    env_no_file.malloc_ok = true ∧
    (main env_no_file).status = Status.undefined ∧
    (main env_no_file).status ≠ Status.returned 0 := by
  have h : (main env_no_file).status = Status.undefined := rfl
  refine ⟨rfl, h, ?_⟩
  rw [h]; exact fun h2 => Status.noConfusion h2

end MinMaxMean
